import Mathlib

/-!
Shallow embedding of the ranking snapshot and change-detection engine of the
allora-checker-bot repository (Go).

Sources embedded (all from `internal/models/models.go` unless noted):
data structures (`AlloraUser`, `Competition`, `UserHistory`, `CompHistory`,
`RankChangeInfo`, `CompChangeInfo`, `WeightRank`, `InfererWeight`,
`UserRankInfo`), the weight ranker (`AlloraService.processWeights`,
`AlloraService.updateCompetitionWeight`,
`AlloraService.UpdateCompetitionWeights`), the snapshot store
(`HistoryService.LoadHistory`, `HistoryService.SaveHistory`), change
detection (`TelegramService.calculateChanges`) and the batch orchestrator
(`TelegramService.CheckRankChanges`).

Modelling conventions: Go `float64` values (points, weights) are embedded as
`ℚ` (the code only subtracts and compares them), Go `int` as `ℤ`, Go maps as
association lists with insert-or-replace update, the file system backing the
history store as an association list keyed by file name, and the outbound
HTTP fetches as oracle functions returning `Option` (`none` = fetch error,
which in the Go code is a non-nil `error`).  `strconv.ParseFloat`, which
parses the textual weights and maps parse failures to `0.0`, is an external
collaborator: weights enter the model already parsed.  `time.Now()` is an
oracle value `now : ℤ`.  JSON serialisation (`encoding/json`), which
round-trips every field of `UserHistory`, is modelled by storing the
`UserHistory` value itself under the file name.
-/

/-- Go `models.Competition`: one competition standing inside an
`AlloraUser`.  `Weight`, `WeightRank` and `TotalWeightParticipants` carry
the JSON tag `"-"`, so a freshly fetched competition has them at their Go
zero values (`0`); they are only filled in by `updateCompetitionWeight`. -/
structure Competition where
  ID : ℤ
  Name : String
  TopicID : ℤ
  Points : ℚ
  Ranking : ℤ
  Weight : ℚ
  WeightRank : ℤ
  TotalWeightParticipants : ℤ
deriving DecidableEq, Repr

/-- Go `models.AlloraUser`: the raw user record returned by the forge API. -/
structure AlloraUser where
  FirstName : String
  LastName : String
  Username : String
  CosmosAddress : String
  TotalPoints : ℚ
  Ranking : ℤ
  BadgePercentile : ℚ
  BadgeName : String
  BadgeDescription : String
  Competitions : List Competition
deriving DecidableEq, Repr

/-- Go `models.CompHistory`: the persisted form of one competition standing. -/
structure CompHistory where
  ID : ℤ
  Points : ℚ
  Ranking : ℤ
  Weight : ℚ
  WeightRank : ℤ
  TotalWeightParticipants : ℤ
deriving DecidableEq, Repr

/-- Go `models.UserHistory`: the persisted snapshot of one address
(`Timestamp` is `time.Now()` at save time, modelled as an integer instant). -/
structure UserHistory where
  Timestamp : ℤ
  TotalPoints : ℚ
  Ranking : ℤ
  Competitions : List CompHistory
deriving DecidableEq, Repr

/-- Go `models.UserRankInfo`: the per-address display record accumulated by
the batch pass. -/
structure UserRankInfo where
  Name : String
  Username : String
  Ranking : ℤ
  Points : ℚ
  BadgeName : String
  Address : String
  Competitions : List Competition
deriving DecidableEq, Repr

/-- Go `models.CompChangeInfo`: the per-competition entry of a change
record. -/
structure CompChangeInfo where
  RankChanged : Bool
  RankDiff : ℤ
  PointsDiff : ℚ
  WeightDiff : ℚ
  WeightRankDiff : ℤ
deriving DecidableEq, Repr

/-- Go `models.RankChangeInfo`: the change record for one address.  The Go
field `CompChanges` is a `map[int]CompChangeInfo`; it is modelled as an
association list updated with insert-or-replace (`mapInsert`). -/
structure RankChangeInfo where
  OverallRankChanged : Bool
  OverallRankDiff : ℤ
  PointsDiff : ℚ
  CompChanges : List (ℤ × CompChangeInfo)
deriving DecidableEq, Repr

/-- Go `models.InfererWeight`: one (worker, weight) pair of a fetched weight
set.  In Go the weight is decimal text handed to `strconv.ParseFloat`; here
it is the parsed value. -/
structure InfererWeight where
  Worker : String
  Weight : ℚ
deriving DecidableEq, Repr

/-- Go `models.WeightRank`: a ranked weight entry produced by
`processWeights`. -/
structure WeightRank where
  Worker : String
  Weight : ℚ
  Rank : ℤ
deriving DecidableEq, Repr

/-- Go map update `m[k] = v` on the association-list model: replace the
binding of `k` if one exists, otherwise append a new binding. -/
def mapInsert {κ β : Type} [DecidableEq κ] : List (κ × β) → κ → β → List (κ × β)
  | [], k, v => [(k, v)]
  | (k₀, v₀) :: rest, k, v =>
    if k₀ = k then (k, v) :: rest else (k₀, v₀) :: mapInsert rest k v

/-- Go map read `m[k]` on the association-list model. -/
def mapLookup {κ β : Type} [DecidableEq κ] : List (κ × β) → κ → Option β
  | [], _ => none
  | (k₀, v₀) :: rest, k => if k₀ = k then some v₀ else mapLookup rest k

/-- Inner loop of the selection sort in `AlloraService.processWeights`
(models.go lines 783-788): scan the remaining entries `ws`, carrying the
weight `curW` and index `curIdx` of the current maximum and the index `j` of
the entry under scrutiny, and return the index of the first entry attaining
the maximum weight (the comparison `result[j].Weight > result[maxIdx].Weight`
is strict, so the earliest maximum wins). -/
def maxIdxScan : List WeightRank → ℚ → Nat → Nat → Nat
  | [], _, curIdx, _ => curIdx
  | w :: ws, curW, curIdx, j =>
    if w.Weight > curW then maxIdxScan ws w.Weight j (j + 1)
    else maxIdxScan ws curW curIdx (j + 1)

/-- Outer loop of the selection sort in `processWeights` (models.go lines
782-792).  At step `i` the Go code finds the first maximum of
`result[i:]` and, when its index differs from `i`, swaps it with
`result[i]`; positions below `i` are never touched again, so the loop is
this recursion on the suffix: the head either stays (`k = 0`, no swap) or
is exchanged with the maximum at offset `k` (`result[i]` receives the
maximum `xs.getD (k-1) x` and position `k` receives the old head `x`).
The first argument is the loop counter: `processWeights` passes the list
length and the Go loop runs exactly `len(result)` times. -/
def selSortLoop : Nat → List WeightRank → List WeightRank
  | 0, _ => []
  | _, [] => []
  | fuel + 1, x :: xs =>
    let k := maxIdxScan xs x.Weight 0 1
    if k = 0 then x :: selSortLoop fuel xs
    else xs.getD (k - 1) x :: selSortLoop fuel (xs.set (k - 1) x)

/-- Rank assignment pass of `processWeights` (models.go lines 795-797:
`result[i].Rank = i + 1`), generalised over the first rank handed out. -/
def assignRanks : ℤ → List WeightRank → List WeightRank
  | _, [] => []
  | n, w :: ws => { w with Rank := n } :: assignRanks (n + 1) ws

/-- The list `[n, n+1, ..., n+k-1]` of `k` consecutive integers: the ranks
`assignRanks n` hands out to a list of length `k`. -/
def rangeInt : ℤ → Nat → List ℤ
  | _, 0 => []
  | n, k + 1 => n :: rangeInt (n + 1) k

/-- Go `AlloraService.processWeights` (models.go lines 771-800): convert the
fetched (worker, weight) pairs to `WeightRank` entries with `Rank = 0`,
selection-sort them by weight descending, then assign sequential ranks
`i + 1`. -/
def processWeights (ws : List InfererWeight) : List WeightRank :=
  let result := ws.map (fun w => { Worker := w.Worker, Weight := w.Weight, Rank := 0 : WeightRank })
  assignRanks 1 (selSortLoop result.length result)

/-- Go `AlloraService.updateCompetitionWeight` (models.go lines 803-812):
find the first ranked weight entry whose worker is `address` (the Go loop
breaks on the first match) and, if present, copy its weight and rank into
the competition together with the total participant count; otherwise leave
the competition untouched. -/
def updateCompetitionWeight (comp : Competition) (weights : List WeightRank)
    (address : String) : Competition :=
  match weights.find? (fun w => w.Worker == address) with
  | some w => { comp with Weight := w.Weight, WeightRank := w.Rank,
                          TotalWeightParticipants := (weights.length : ℤ) }
  | none => comp

/-- Per-competition body of `AlloraService.UpdateCompetitionWeights`
(models.go lines 757-766): fetch the weight set of each competition's topic
in order; any fetch failure makes the whole call return the error (`none`),
which is what `return fmt.Errorf(...)` at line 761 does.  On success every
competition is enriched via `processWeights` and
`updateCompetitionWeight`. -/
def enrichComps (fetchWeights : ℤ → Option (List InfererWeight)) (address : String) :
    List Competition → Option (List Competition)
  | [] => some []
  | c :: cs =>
    match fetchWeights c.TopicID with
    | none => none
    | some iw =>
      match enrichComps fetchWeights address cs with
      | none => none
      | some rest => some (updateCompetitionWeight c (processWeights iw) address :: rest)

/-- Go `AlloraService.UpdateCompetitionWeights` (models.go lines 756-768). -/
def UpdateCompetitionWeights (fetchWeights : ℤ → Option (List InfererWeight))
    (user : AlloraUser) (address : String) : Option AlloraUser :=
  match enrichComps fetchWeights address user.Competitions with
  | none => none
  | some cs => some { user with Competitions := cs }

/-- File name used by `HistoryService` (models.go lines 140 and 177):
`filepath.Join(baseDir, fmt.Sprintf("history_%s.json", address))`. -/
def histFilename (baseDir address : String) : String :=
  baseDir ++ "/" ++ "history_" ++ address ++ ".json"

/-- Snapshot construction inside `HistoryService.SaveHistory` (models.go
lines 159-175): copy the user's totals and every competition's persisted
fields, stamping the save time. -/
def toHistory (now : ℤ) (user : AlloraUser) : UserHistory :=
  { Timestamp := now
    TotalPoints := user.TotalPoints
    Ranking := user.Ranking
    Competitions := user.Competitions.map (fun c =>
      { ID := c.ID, Points := c.Points, Ranking := c.Ranking, Weight := c.Weight,
        WeightRank := c.WeightRank,
        TotalWeightParticipants := c.TotalWeightParticipants }) }

/-- Go `HistoryService.LoadHistory` (models.go lines 139-155) over the
file-system model `fs`: a missing file is the not-found case and yields
`none` (the Go code returns `nil, nil`); a present file yields its decoded
snapshot.  Read errors other than not-found and decode errors are
conditions of the external file system and are not representable in the
pure store model. -/
def LoadHistory (fs : List (String × UserHistory)) (baseDir address : String) :
    Option UserHistory :=
  mapLookup fs (histFilename baseDir address)

/-- Go `HistoryService.SaveHistory` (models.go lines 158-188) over the
file-system model: build the snapshot via `toHistory` and overwrite the
address's file wholesale. -/
def SaveHistory (fs : List (String × UserHistory)) (baseDir address : String)
    (user : AlloraUser) (now : ℤ) : List (String × UserHistory) :=
  mapInsert fs (histFilename baseDir address) (toHistory now user)

/-- The `CompChangeInfo` built for a current competition `c` and its matched
previous standing `p` (models.go lines 460-466 and, identically, lines
391-397). -/
def compChangeEntry (c : Competition) (p : CompHistory) : CompChangeInfo :=
  { RankChanged := c.Ranking != p.Ranking
    RankDiff := p.Ranking - c.Ranking
    PointsDiff := c.Points - p.Points
    WeightDiff := c.Weight - p.Weight
    WeightRankDiff := p.WeightRank - c.WeightRank }

/-- One iteration of the competition loop of
`TelegramService.calculateChanges` (models.go lines 457-470): look for the
first previous competition with the same identifier (the inner loop breaks
on the first match); when found, write the computed entry into the map,
otherwise leave the map unchanged. -/
def compChangeStep (prevComps : List CompHistory) (m : List (ℤ × CompChangeInfo))
    (c : Competition) : List (ℤ × CompChangeInfo) :=
  match prevComps.find? (fun p => c.ID == p.ID) with
  | some p => mapInsert m c.ID (compChangeEntry c p)
  | none => m

/-- Go `TelegramService.calculateChanges` (models.go lines 449-473).
`TelegramService.CheckRankChanges` inlines the identical computation at
lines 381-401. -/
def calculateChanges (current : AlloraUser) (prev : UserHistory) : RankChangeInfo :=
  { OverallRankChanged := current.Ranking != prev.Ranking
    OverallRankDiff := prev.Ranking - current.Ranking
    PointsDiff := current.TotalPoints - prev.TotalPoints
    CompChanges := current.Competitions.foldl (compChangeStep prev.Competitions) [] }

/-- The `UserRankInfo` appended for one processed address (models.go lines
405-413). -/
def mkUserRankInfo (address : String) (user : AlloraUser) : UserRankInfo :=
  { Name := user.FirstName ++ " " ++ user.LastName
    Username := user.Username
    Ranking := user.Ranking
    Points := user.TotalPoints
    BadgeName := user.BadgeName
    Address := address
    Competitions := user.Competitions }

/-- One iteration of the address loop of `TelegramService.CheckRankChanges`
(models.go lines 359-414), threading the accumulated (changes map, users
list) pair: fetch the user (`continue` on error), enrich the competition
weights (`continue` on error), load the previous snapshot (not-found gives
`none`; a read error would also `continue`, a case outside the pure store
model), record a change entry only when a previous snapshot exists, and
append the display record. -/
def processAddress (baseDir : String) (fetchUser : String → Option AlloraUser)
    (fetchWeights : ℤ → Option (List InfererWeight)) (fs : List (String × UserHistory))
    (acc : List (String × RankChangeInfo) × List UserRankInfo) (address : String) :
    List (String × RankChangeInfo) × List UserRankInfo :=
  match fetchUser address with
  | none => acc
  | some fetched =>
    match UpdateCompetitionWeights fetchWeights fetched address with
    | none => acc
    | some user =>
      let changes :=
        match LoadHistory fs baseDir address with
        | some prev => mapInsert acc.1 address (calculateChanges user prev)
        | none => acc.1
      (changes, acc.2 ++ [mkUserRankInfo address user])

/-- The notification predicate of `CheckRankChanges` (models.go lines
417-432): the loop sets `hasRankChanges` and breaks as soon as some change
record has a changed overall rank or some competition entry has a changed
rank, which is exactly this `any` of `any`. -/
def hasRankChangesOf (changes : List (String × RankChangeInfo)) : Bool :=
  changes.any (fun p =>
    p.2.OverallRankChanged || p.2.CompChanges.any (fun q => q.2.RankChanged))

/-- Result of one batch pass of `TelegramService.CheckRankChanges`:
the accumulated change records and display records, the file-system state
after the pass, and whether the notification branch ran (the send itself is
the external delivery collaborator). -/
structure BatchResult where
  changes : List (String × RankChangeInfo)
  users : List UserRankInfo
  store : List (String × UserHistory)
  notified : Bool
deriving DecidableEq, Repr

/-- Go `TelegramService.CheckRankChanges` (models.go lines 352-446).
The local `collected` models the `userData` map declared at line 356
(`userData := make(map[string]*models.AlloraUser)`).  That map is never
written: the fetch at line 361 uses `userData, err := ...`, which declares
a new loop-local variable shadowing the outer map, so the outer map stays
empty.  When `hasRankChanges` holds, the code sends the notification and
then runs the save loop of lines 440-444 over this (empty) map, which is
the fold below. -/
def CheckRankChanges (addresses : List String) (baseDir : String)
    (fetchUser : String → Option AlloraUser)
    (fetchWeights : ℤ → Option (List InfererWeight))
    (fs : List (String × UserHistory)) (now : ℤ) : BatchResult :=
  let acc := addresses.foldl (processAddress baseDir fetchUser fetchWeights fs) ([], [])
  let hasRankChanges := hasRankChangesOf acc.1
  let collected : List (String × AlloraUser) := []
  let store :=
    if hasRankChanges then
      collected.foldl (fun s p => SaveHistory s baseDir p.1 p.2 now) fs
    else fs
  { changes := acc.1, users := acc.2, store := store, notified := hasRankChanges }

/-- Concrete fixtures used by counterexamples and witnesses below. -/
def exUserA : AlloraUser :=
  { FirstName := "Alice", LastName := "A", Username := "alice", CosmosAddress := "A",
    TotalPoints := 12, Ranking := 3, BadgePercentile := 0, BadgeName := "",
    BadgeDescription := "", Competitions := [] }

/-- A stored snapshot for address `"A"` whose overall rank (5) differs from
the freshly fetched rank (3) of `exUserA`, making the batch
notification-worthy. -/
def exOldHistA : UserHistory :=
  { Timestamp := 0, TotalPoints := 10, Ranking := 5, Competitions := [] }

/-- Fetch oracle: address `"A"` resolves to `exUserA`, all else fails. -/
def exFetchUserA : String → Option AlloraUser := fun a => if a = "A" then some exUserA else none

/-- Weight-fetch oracle that always fails (never consulted for a user with
no competitions). -/
def exNoWeights : ℤ → Option (List InfererWeight) := fun _ => none

/-- File system holding only the old snapshot of address `"A"`. -/
def exFsA : List (String × UserHistory) := [(histFilename "h" "A", exOldHistA)]

/-- Competition on topic 1 for the enrichment-failure scenario. -/
def exCompT1 : Competition :=
  { ID := 1, Name := "c1", TopicID := 1, Points := 2, Ranking := 3, Weight := 0,
    WeightRank := 0, TotalWeightParticipants := 0 }

/-- Competition on topic 2 (whose weight fetch will fail). -/
def exCompT2 : Competition :=
  { ID := 2, Name := "c2", TopicID := 2, Points := 3, Ranking := 4, Weight := 0,
    WeightRank := 0, TotalWeightParticipants := 0 }

/-- User at address `"B"` active in two competitions. -/
def exUserB : AlloraUser :=
  { FirstName := "Bob", LastName := "B", Username := "bob", CosmosAddress := "B",
    TotalPoints := 12, Ranking := 3, BadgePercentile := 0, BadgeName := "",
    BadgeDescription := "", Competitions := [exCompT1, exCompT2] }

/-- Stored snapshot for `"B"` with a different overall and competition rank,
so the address would be diffed and counted if it were processed. -/
def exPrevB : UserHistory :=
  { Timestamp := 0, TotalPoints := 10, Ranking := 5,
    Competitions := [{ ID := 1, Points := 2, Ranking := 7, Weight := 0, WeightRank := 0,
                       TotalWeightParticipants := 0 }] }

/-- Fetch oracle resolving only address `"B"`. -/
def exFetchUserB : String → Option AlloraUser := fun a => if a = "B" then some exUserB else none

/-- Weight-fetch oracle that succeeds for topic 1 and fails for topic 2:
exactly one competition's weight fetch fails. -/
def exFetchWeightsB : ℤ → Option (List InfererWeight) :=
  fun t => if t = 1 then some [{ Worker := "B", Weight := 1 }] else none

/-- File system holding only the old snapshot of address `"B"`. -/
def exFsB : List (String × UserHistory) := [(histFilename "h" "B", exPrevB)]

/-- Current snapshot of the specification's worked scenario (overall rank 3,
points 12.5, one competition with id 1). -/
def exScenCurrent : AlloraUser :=
  { FirstName := "S", LastName := "S", Username := "s", CosmosAddress := "S",
    TotalPoints := mkRat 25 2, Ranking := 3, BadgePercentile := 0, BadgeName := "",
    BadgeDescription := "",
    Competitions := [{ ID := 1, Name := "comp1", TopicID := 1, Points := mkRat 5 2, Ranking := 2,
                       Weight := mkRat 1 50, WeightRank := 2, TotalWeightParticipants := 10 }] }

/-- Previous snapshot of the specification's worked scenario (overall rank
5, points 10.0, competition 1 at rank 3). -/
def exScenPrev : UserHistory :=
  { Timestamp := 0, TotalPoints := 10, Ranking := 5,
    Competitions := [{ ID := 1, Points := 2, Ranking := 3, Weight := mkRat 1 100, WeightRank := 4,
                       TotalWeightParticipants := 10 }] }

/- ------------------------------------------------------------------ -/
/- Helper lemmas (shared infrastructure, not claim theorems).          -/
/- ------------------------------------------------------------------ -/

theorem mapLookup_insert_self {κ β : Type} [DecidableEq κ] :
    ∀ (m : List (κ × β)) (k : κ) (v : β), mapLookup (mapInsert m k v) k = some v := by
  intro m k v
  induction m with
  | nil => simp [mapInsert, mapLookup]
  | cons p rest ih =>
    by_cases h : p.1 = k
    · simp [mapInsert, mapLookup, h]
    · simp [mapInsert, mapLookup, h, ih]

theorem mapLookup_insert_ne {κ β : Type} [DecidableEq κ] :
    ∀ (m : List (κ × β)) (k : κ) (v : β) (q : κ), k ≠ q →
      mapLookup (mapInsert m k v) q = mapLookup m q := by
  intro m k v q hne
  induction m with
  | nil => simp [mapInsert, mapLookup, hne]
  | cons p rest ih =>
    by_cases h : p.1 = k
    · simp [mapInsert, mapLookup, h, hne]
    · simp [mapInsert, mapLookup, h, ih]

theorem maxIdxScan_spec (d : WeightRank) (ws : List WeightRank) :
    ∀ (curW : ℚ) (curIdx j : Nat),
      (maxIdxScan ws curW curIdx j = curIdx ∧ ∀ w ∈ ws, w.Weight ≤ curW) ∨
      (∃ t, t < ws.length ∧ maxIdxScan ws curW curIdx j = j + t ∧
        curW < (ws.getD t d).Weight ∧ ∀ w ∈ ws, w.Weight ≤ (ws.getD t d).Weight) := by
  induction ws with
  | nil =>
    intro curW curIdx j
    exact Or.inl ⟨rfl, by simp⟩
  | cons w rest ih =>
    intro curW curIdx j
    by_cases h : w.Weight > curW
    · rcases ih w.Weight j (j + 1) with ⟨heq, hall⟩ | ⟨t, ht, heq, hgt, hall⟩
      · refine Or.inr ⟨0, by simp, ?_, by simpa using h, ?_⟩
        · simp only [maxIdxScan, if_pos h]
          simpa using heq
        · intro v hv
          rcases List.mem_cons.mp hv with rfl | hv
          · simp
          · simpa using hall v hv
      · refine Or.inr ⟨t + 1, by simpa using Nat.succ_lt_succ ht, ?_, ?_, ?_⟩
        · simp only [maxIdxScan, if_pos h]
          rw [heq]
          omega
        · simpa using lt_trans h hgt
        · intro v hv
          rcases List.mem_cons.mp hv with rfl | hv
          · simpa using le_of_lt hgt
          · simpa using hall v hv
    · rcases ih curW curIdx (j + 1) with ⟨heq, hall⟩ | ⟨t, ht, heq, hgt, hall⟩
      · refine Or.inl ⟨?_, ?_⟩
        · simp only [maxIdxScan, if_neg h]
          exact heq
        · intro v hv
          rcases List.mem_cons.mp hv with rfl | hv
          · exact not_lt.mp h
          · exact hall v hv
      · refine Or.inr ⟨t + 1, by simpa using Nat.succ_lt_succ ht, ?_, ?_, ?_⟩
        · simp only [maxIdxScan, if_neg h]
          rw [heq]
          omega
        · simpa using hgt
        · intro v hv
          rcases List.mem_cons.mp hv with rfl | hv
          · exact le_trans (not_lt.mp h) (le_of_lt (by simpa using hgt))
          · simpa using hall v hv

theorem cons_set_perm {α : Type} (x d : α) :
    ∀ (xs : List α) (n : Nat), n < xs.length →
      List.Perm (xs.getD n d :: xs.set n x) (x :: xs) := by
  intro xs
  induction xs with
  | nil => intro n h; simp at h
  | cons y ys ih =>
    intro n h
    cases n with
    | zero => simpa using List.Perm.swap x y ys
    | succ n =>
      have hn : n < ys.length := by simpa using Nat.lt_of_succ_lt_succ h
      have ihn := ih n hn
      simp only [List.getD_cons_succ, List.set_cons_succ]
      exact (List.Perm.swap y _ _).trans ((ihn.cons y).trans (List.Perm.swap x y ys))

theorem selSortLoop_perm :
    ∀ (fuel : Nat) (l : List WeightRank), l.length ≤ fuel →
      List.Perm (selSortLoop fuel l) l := by
  intro fuel
  induction fuel with
  | zero =>
    intro l h
    have : l = [] := List.eq_nil_of_length_eq_zero (Nat.le_zero.mp h)
    subst this
    simp [selSortLoop]
  | succ fuel ih =>
    intro l h
    match l with
    | [] => simp [selSortLoop]
    | x :: xs =>
      rcases maxIdxScan_spec x xs x.Weight 0 1 with ⟨heq, _⟩ | ⟨t, ht, heq, _, _⟩
      · simp only [selSortLoop, heq, if_pos rfl]
        exact (ih xs (Nat.le_of_succ_le_succ (by simpa using h))).cons x
      · have h1t : ¬ (1 + t = 0) := by omega
        simp only [selSortLoop, heq, if_neg h1t]
        have hsub : 1 + t - 1 = t := by omega
        rw [hsub]
        have hlen : (xs.set t x).length ≤ fuel := by
          simpa using Nat.le_of_succ_le_succ (by simpa using h)
        exact ((ih _ hlen).cons _).trans (cons_set_perm x x xs t ht)

theorem selSortLoop_sorted :
    ∀ (fuel : Nat) (l : List WeightRank), l.length ≤ fuel →
      List.Pairwise (fun a b => b.Weight ≤ a.Weight) (selSortLoop fuel l) := by
  intro fuel
  induction fuel with
  | zero => intro l _; simp [selSortLoop]
  | succ fuel ih =>
    intro l h
    match l with
    | [] => simp [selSortLoop]
    | x :: xs =>
      have hxs : xs.length ≤ fuel := Nat.le_of_succ_le_succ (by simpa using h)
      rcases maxIdxScan_spec x xs x.Weight 0 1 with ⟨heq, hall⟩ | ⟨t, ht, heq, hgt, hall⟩
      · simp only [selSortLoop, heq, if_pos rfl]
        refine List.pairwise_cons.mpr ⟨?_, ih xs hxs⟩
        intro b hb
        exact hall b ((selSortLoop_perm fuel xs hxs).mem_iff.mp hb)
      · have h1t : ¬ (1 + t = 0) := by omega
        simp only [selSortLoop, heq, if_neg h1t]
        have hsub : 1 + t - 1 = t := by omega
        rw [hsub]
        have hlen : (xs.set t x).length ≤ fuel := by simpa using hxs
        refine List.pairwise_cons.mpr ⟨?_, ih _ hlen⟩
        intro b hb
        have hb' : b ∈ xs.set t x := (selSortLoop_perm fuel _ hlen).mem_iff.mp hb
        rcases List.mem_or_eq_of_mem_set hb' with hbx | rfl
        · exact hall b hbx
        · exact le_of_lt hgt

theorem assignRanks_map_rank :
    ∀ (l : List WeightRank) (n : ℤ),
      (assignRanks n l).map (fun w => w.Rank) = rangeInt n l.length := by
  intro l
  induction l with
  | nil => intro n; simp [assignRanks, rangeInt]
  | cons w ws ih => intro n; simp [assignRanks, rangeInt, ih]

theorem assignRanks_map_strip :
    ∀ (l : List WeightRank) (n : ℤ),
      (assignRanks n l).map (fun w => ({ Worker := w.Worker, Weight := w.Weight } : InfererWeight)) =
        l.map (fun w => ({ Worker := w.Worker, Weight := w.Weight } : InfererWeight)) := by
  intro l
  induction l with
  | nil => intro n; simp [assignRanks]
  | cons w ws ih => intro n; simp [assignRanks, ih]

theorem assignRanks_mem :
    ∀ (l : List WeightRank) (n : ℤ) (b : WeightRank), b ∈ assignRanks n l →
      (∃ a ∈ l, b.Weight = a.Weight) ∧ n ≤ b.Rank := by
  intro l
  induction l with
  | nil => intro n b hb; simp [assignRanks] at hb
  | cons w ws ih =>
    intro n b hb
    rcases List.mem_cons.mp hb with rfl | hb
    · exact ⟨⟨w, List.mem_cons_self w ws, rfl⟩, le_refl n⟩
    · rcases ih (n + 1) b hb with ⟨⟨a, ha, hw⟩, hr⟩
      exact ⟨⟨a, List.mem_cons_of_mem w ha, hw⟩, by omega⟩

theorem assignRanks_pairwise :
    ∀ (l : List WeightRank) (n : ℤ),
      List.Pairwise (fun a b => b.Weight ≤ a.Weight) l →
      List.Pairwise (fun a b => b.Weight ≤ a.Weight ∧ a.Rank < b.Rank) (assignRanks n l) := by
  intro l
  induction l with
  | nil => intro n _; simp [assignRanks]
  | cons w ws ih =>
    intro n h
    rcases List.pairwise_cons.mp h with ⟨hw, hws⟩
    refine List.pairwise_cons.mpr ⟨?_, ih (n + 1) hws⟩
    intro b hb
    rcases assignRanks_mem ws (n + 1) b hb with ⟨⟨a, ha, hweq⟩, hr⟩
    exact ⟨by simpa [hweq] using hw a ha, by simpa using (by omega : n < b.Rank)⟩

/-- Elements of `processAddress acc a` accumulate: the users list only ever
grows by appending, so membership is preserved along the fold. -/
theorem foldl_users_mono (baseDir : String) (fetchUser : String → Option AlloraUser)
    (fetchWeights : ℤ → Option (List InfererWeight)) (fs : List (String × UserHistory)) :
    ∀ (l : List String) (acc : List (String × RankChangeInfo) × List UserRankInfo)
      (info : UserRankInfo), info ∈ acc.2 →
      info ∈ (l.foldl (processAddress baseDir fetchUser fetchWeights fs) acc).2 := by
  intro l
  induction l with
  | nil => intro acc info h; exact h
  | cons a rest ih =>
    intro acc info h
    apply ih
    rcases hfu : fetchUser a with _ | fetched
    · simpa [processAddress, hfu] using h
    · rcases henr : UpdateCompetitionWeights fetchWeights fetched a with _ | user
      · simpa [processAddress, hfu, henr] using h
      · simp only [processAddress, hfu, henr]
        exact List.mem_append_left _ h

/-- If processing address `addr` never reaches the point where a change
entry is written (because its snapshot is absent whenever fetch and
enrichment succeed), the fold never creates a binding for `addr` in the
changes map. -/
theorem foldl_changes_none (baseDir : String) (fetchUser : String → Option AlloraUser)
    (fetchWeights : ℤ → Option (List InfererWeight)) (fs : List (String × UserHistory))
    (addr : String)
    (hP : ∀ u, fetchUser addr = some u →
      ∀ u2, UpdateCompetitionWeights fetchWeights u addr = some u2 →
        LoadHistory fs baseDir addr = none) :
    ∀ (l : List String) (acc : List (String × RankChangeInfo) × List UserRankInfo),
      mapLookup acc.1 addr = none →
      mapLookup (l.foldl (processAddress baseDir fetchUser fetchWeights fs) acc).1 addr = none := by
  intro l
  induction l with
  | nil => intro acc h; exact h
  | cons a rest ih =>
    intro acc h
    apply ih
    rcases hfu : fetchUser a with _ | fetched
    · simpa [processAddress, hfu] using h
    · rcases henr : UpdateCompetitionWeights fetchWeights fetched a with _ | user
      · simpa [processAddress, hfu, henr] using h
      · by_cases ha : a = addr
        · subst ha
          have hload : LoadHistory fs baseDir a = none := hP fetched hfu user henr
          simpa [processAddress, hfu, henr, hload] using h
        · rcases hload : LoadHistory fs baseDir a with _ | prev
          · simpa [processAddress, hfu, henr, hload] using h
          · simp only [processAddress, hfu, henr, hload]
            rw [mapLookup_insert_ne _ _ _ _ ha]
            exact h

/-- A successfully fetched and enriched address always contributes its
display record to the users list of the batch pass. -/
theorem foldl_users_present (baseDir : String) (fetchUser : String → Option AlloraUser)
    (fetchWeights : ℤ → Option (List InfererWeight)) (fs : List (String × UserHistory))
    (addr : String) (u u2 : AlloraUser)
    (hu : fetchUser addr = some u)
    (henr : UpdateCompetitionWeights fetchWeights u addr = some u2) :
    ∀ (l : List String) (acc : List (String × RankChangeInfo) × List UserRankInfo),
      addr ∈ l →
      ∃ info ∈ (l.foldl (processAddress baseDir fetchUser fetchWeights fs) acc).2,
        info.Address = addr := by
  intro l
  induction l with
  | nil => intro acc h; simp at h
  | cons a rest ih =>
    intro acc hmem
    rcases List.mem_cons.mp hmem with rfl | hmem
    · rw [List.foldl_cons]
      refine ⟨mkUserRankInfo addr u2, ?_, rfl⟩
      apply foldl_users_mono
      simp [processAddress, hu, henr]
    · exact ih _ hmem

/-- If enrichment always fails for `addr` (whenever its fetch succeeds),
then no display record for `addr` ever enters the users list. -/
theorem foldl_users_absent (baseDir : String) (fetchUser : String → Option AlloraUser)
    (fetchWeights : ℤ → Option (List InfererWeight)) (fs : List (String × UserHistory))
    (addr : String)
    (hQ : ∀ u, fetchUser addr = some u →
      UpdateCompetitionWeights fetchWeights u addr = none) :
    ∀ (l : List String) (acc : List (String × RankChangeInfo) × List UserRankInfo),
      (∀ info ∈ acc.2, info.Address ≠ addr) →
      ∀ info ∈ (l.foldl (processAddress baseDir fetchUser fetchWeights fs) acc).2,
        info.Address ≠ addr := by
  intro l
  induction l with
  | nil => intro acc h; exact h
  | cons a rest ih =>
    intro acc h
    apply ih
    rcases hfu : fetchUser a with _ | fetched
    · simpa [processAddress, hfu] using h
    · rcases henr : UpdateCompetitionWeights fetchWeights fetched a with _ | user
      · simpa [processAddress, hfu, henr] using h
      · have ha : a ≠ addr := by
          intro hcon
          subst hcon
          exact absurd henr (by simp [hQ fetched hfu])
        simp only [processAddress, hfu, henr]
        intro info hinfo
        rcases List.mem_append.mp hinfo with hinfo | hinfo
        · exact h info hinfo
        · rcases List.mem_singleton.mp hinfo with rfl
          simpa [mkUserRankInfo] using ha

/-- The competition-change fold never touches map keys that are not the
identifier of some competition in the processed list. -/
theorem compFold_lookup_other (P : List CompHistory) :
    ∀ (l : List Competition) (m : List (ℤ × CompChangeInfo)) (k : ℤ),
      (∀ c ∈ l, c.ID ≠ k) →
      mapLookup (l.foldl (compChangeStep P) m) k = mapLookup m k := by
  intro l
  induction l with
  | nil => intro m k _; rfl
  | cons c rest ih =>
    intro m k hk
    have hstep : mapLookup (compChangeStep P m c) k = mapLookup m k := by
      rcases hf : P.find? (fun p => c.ID == p.ID) with _ | p
      · simp [compChangeStep, hf]
      · simp only [compChangeStep, hf]
        exact mapLookup_insert_ne _ _ _ _ (hk c (List.mem_cons_self c rest))
    calc mapLookup ((c :: rest).foldl (compChangeStep P) m) k
        = mapLookup (rest.foldl (compChangeStep P) (compChangeStep P m c)) k := rfl
      _ = mapLookup (compChangeStep P m c) k := ih _ k (fun x hx => hk x (List.mem_cons_of_mem c hx))
      _ = mapLookup m k := hstep

/-- Lookup characterisation of the competition-change fold for a
competition `c` of the current snapshot, assuming the snapshot's
competition identifiers are pairwise distinct. -/
theorem compFold_lookup_mem (P : List CompHistory) :
    ∀ (l : List Competition) (m : List (ℤ × CompChangeInfo)) (c : Competition),
      c ∈ l → (l.map (fun x => x.ID)).Nodup →
      ((∀ p, P.find? (fun p => c.ID == p.ID) = some p →
          mapLookup (l.foldl (compChangeStep P) m) c.ID = some (compChangeEntry c p)) ∧
       (P.find? (fun p => c.ID == p.ID) = none →
          mapLookup (l.foldl (compChangeStep P) m) c.ID = mapLookup m c.ID)) := by
  intro l
  induction l with
  | nil => intro m c hc; simp at hc
  | cons c0 rest ih =>
    intro m c hc hnd
    have hnd' : (∀ x ∈ rest, ¬x.ID = c0.ID) ∧ (rest.map (fun x => x.ID)).Nodup := by
      simpa using hnd
    rcases List.mem_cons.mp hc with rfl | hc
    · have hrest : ∀ x ∈ rest, x.ID ≠ c.ID := by
        intro x hx hcon
        exact hnd'.1 x hx hcon
      constructor
      · intro p hf
        have : mapLookup ((c :: rest).foldl (compChangeStep P) m) c.ID =
            mapLookup (compChangeStep P m c) c.ID := compFold_lookup_other P rest _ c.ID hrest
        rw [this]
        simp only [compChangeStep, hf]
        exact mapLookup_insert_self _ _ _
      · intro hf
        have : mapLookup ((c :: rest).foldl (compChangeStep P) m) c.ID =
            mapLookup (compChangeStep P m c) c.ID := compFold_lookup_other P rest _ c.ID hrest
        rw [this]
        simp [compChangeStep, hf]
    · have hne : c0.ID ≠ c.ID := by
        intro hcon
        exact hnd'.1 c hc hcon.symm
      have ihr := ih (compChangeStep P m c0) c hc hnd'.2
      rw [List.foldl_cons]
      refine ⟨ihr.1, ?_⟩
      intro hf
      rw [ihr.2 hf]
      rcases hf0 : P.find? (fun p => c0.ID == p.ID) with _ | p0
      · simp [compChangeStep, hf0]
      · simp only [compChangeStep, hf0]
        exact mapLookup_insert_ne _ _ _ _ hne

/-- The ranks handed out by `processWeights` are exactly the consecutive
integers 1..N (shared infrastructure for the ranker claims). -/
theorem processWeights_ranks (ws : List InfererWeight) :
    (processWeights ws).map (fun w => w.Rank) = rangeInt 1 ws.length := by
  unfold processWeights
  rw [assignRanks_map_rank]
  have hperm := selSortLoop_perm (ws.map (fun w =>
    { Worker := w.Worker, Weight := w.Weight, Rank := 0 : WeightRank })).length
    (ws.map (fun w => { Worker := w.Worker, Weight := w.Weight, Rank := 0 : WeightRank }))
    (le_refl _)
  rw [hperm.length_eq, List.length_map]

/-- C7: for every weight input list, the ranker's output contains each input
entry exactly once (the output stripped of ranks is a permutation of the
input), the assigned ranks are exactly the consecutive integers `1..N` (a
permutation of `[1..N]` with no repeats), and any output entry with strictly
greater weight receives a strictly smaller rank. -/
theorem processWeights_spec (ws : List InfererWeight) :
    List.Perm ((processWeights ws).map (fun w =>
        ({ Worker := w.Worker, Weight := w.Weight } : InfererWeight))) ws ∧
    (processWeights ws).map (fun w => w.Rank) = rangeInt 1 ws.length ∧
    ∀ a ∈ processWeights ws, ∀ b ∈ processWeights ws,
      a.Weight > b.Weight → a.Rank < b.Rank := by
  have hperm := selSortLoop_perm (ws.map (fun w =>
    { Worker := w.Worker, Weight := w.Weight, Rank := 0 : WeightRank })).length
    (ws.map (fun w => { Worker := w.Worker, Weight := w.Weight, Rank := 0 : WeightRank }))
    (le_refl _)
  have hsort := selSortLoop_sorted (ws.map (fun w =>
    { Worker := w.Worker, Weight := w.Weight, Rank := 0 : WeightRank })).length
    (ws.map (fun w => { Worker := w.Worker, Weight := w.Weight, Rank := 0 : WeightRank }))
    (le_refl _)
  refine ⟨?_, processWeights_ranks ws, ?_⟩
  · unfold processWeights
    rw [assignRanks_map_strip]
    refine (hperm.map _).trans ?_
    rw [List.map_map]
    have hid : List.map
        ((fun w : WeightRank => ({ Worker := w.Worker, Weight := w.Weight } : InfererWeight)) ∘
          (fun w : InfererWeight =>
            ({ Worker := w.Worker, Weight := w.Weight, Rank := 0 } : WeightRank))) ws = ws :=
      List.map_id'' (fun w => rfl) ws
    rw [hid]
  · have hp := assignRanks_pairwise _ 1 hsort
    have hp2 : List.Pairwise (fun a b : WeightRank =>
        (a.Weight > b.Weight → a.Rank < b.Rank) ∧
        (b.Weight > a.Weight → b.Rank < a.Rank)) (processWeights ws) := by
      refine List.Pairwise.imp ?_ hp
      intro a b hab
      exact ⟨fun _ => hab.2, fun hba => absurd hba (not_lt.mpr hab.1)⟩
    have hsym : Symmetric (fun a b : WeightRank =>
        (a.Weight > b.Weight → a.Rank < b.Rank) ∧
        (b.Weight > a.Weight → b.Rank < a.Rank)) := by
      intro a b h
      exact ⟨h.2, h.1⟩
    intro a ha b hb hgt
    by_cases hab : a = b
    · subst hab
      exact absurd hgt (lt_irrefl _)
    · exact (hp2.forall hsym ha hb hab).1 hgt

/-- C7 witness: on the input `[("a", 1), ("b", 2)]` the entry for worker
`b` (weight 2, rank 1) outranks the entry for worker `a` (weight 1,
rank 2). -/
theorem processWeights_spec_witness :
    ({ Worker := "b", Weight := 2, Rank := 1 } : WeightRank).Rank <
      ({ Worker := "a", Weight := 1, Rank := 2 } : WeightRank).Rank :=
  (processWeights_spec [{ Worker := "a", Weight := 1 }, { Worker := "b", Weight := 2 }]).2.2
    { Worker := "b", Weight := 2, Rank := 1 } (by decide)
    { Worker := "a", Weight := 1, Rank := 2 } (by decide) (by decide)

/-- C5 counterexample: the selection sort of `processWeights` is not a
stable sort.  On the input `[("a", 3), ("b", 2), ("c", 2), ("d", 4)]` the
workers `b` and `c` are tied at weight 2 with `b` first in input order, yet
the output ranks `c` third and `b` fourth: the swap that moves `d` to the
front (and later `a`) displaces the tied pair, so ties do not keep their
original input order.  A stable descending sort would have produced
`[("d", 1), ("a", 2), ("b", 3), ("c", 4)]`, which the second conjunct
refutes. -/
theorem processWeights_not_stable_cex :
    (processWeights [{ Worker := "a", Weight := 3 }, { Worker := "b", Weight := 2 },
                     { Worker := "c", Weight := 2 }, { Worker := "d", Weight := 4 }]).map
        (fun w => (w.Worker, w.Rank)) =
      [("d", 1), ("a", 2), ("c", 3), ("b", 4)] ∧
    ¬ (processWeights [{ Worker := "a", Weight := 3 }, { Worker := "b", Weight := 2 },
                       { Worker := "c", Weight := 2 }, { Worker := "d", Weight := 4 }]).map
        (fun w => (w.Worker, w.Rank)) =
      [("d", 1), ("a", 2), ("b", 3), ("c", 4)] := by
  constructor
  · decide
  · decide

/-- C5 amended: the ranker sorts by weight descending and assigns strictly
increasing sequential ranks `1..N` (no shared ranks), but the hand-written
selection sort is not stable in general — a swap can reorder tied weights —
so ties are not guaranteed to keep their original input order.  On the
claim's concrete input `[("w1","0.5"), ("w2","0.8"), ("w3","0.8")]` the
stated output does hold: w2→1, w3→2, w1→3. -/
theorem processWeights_scenario :
    (processWeights [{ Worker := "w1", Weight := mkRat 1 2 }, { Worker := "w2", Weight := mkRat 4 5 },
                     { Worker := "w3", Weight := mkRat 4 5 }]).map (fun w => (w.Worker, w.Rank)) =
      [("w2", 1), ("w3", 2), ("w1", 3)] ∧
    ∀ ws : List InfererWeight,
      (processWeights ws).map (fun w => w.Rank) = rangeInt 1 ws.length := by
  exact ⟨by decide, processWeights_ranks⟩

/-- C9: for every address key and snapshot, a load immediately following a
save returns exactly the snapshot that was written, and the written
snapshot round-trips the timestamp, the overall rank and points, and the
full competition list including weight, weight-rank and total-participant
fields.  (File I/O and JSON encoding — which Go round-trips exactly for
these field types — are modelled by the key-value store.) -/
theorem saveHistory_loadHistory_roundtrip (fs : List (String × UserHistory))
    (baseDir address : String) (user : AlloraUser) (now : ℤ) :
    LoadHistory (SaveHistory fs baseDir address user now) baseDir address =
      some (toHistory now user) ∧
    (toHistory now user).Timestamp = now ∧
    (toHistory now user).Ranking = user.Ranking ∧
    (toHistory now user).TotalPoints = user.TotalPoints ∧
    (toHistory now user).Competitions = user.Competitions.map (fun c =>
      { ID := c.ID, Points := c.Points, Ranking := c.Ranking, Weight := c.Weight,
        WeightRank := c.WeightRank,
        TotalWeightParticipants := c.TotalWeightParticipants }) := by
  refine ⟨?_, rfl, rfl, rfl, rfl⟩
  simp only [LoadHistory, SaveHistory]
  exact mapLookup_insert_self _ _ _

/-- C10: `updateCompetitionWeight` modifies at most the `Weight`,
`WeightRank` and `TotalWeightParticipants` fields; when the target address
has no entry in the weight ranking the standing is returned entirely
unchanged, so a zero weight-rank stays `0` — a value outside the documented
range `[1, total participants]` — and `toHistory` persists weight-ranks
verbatim into the snapshot. -/
theorem updateCompetitionWeight_spec (comp : Competition) (weights : List WeightRank)
    (address : String) :
    ((updateCompetitionWeight comp weights address).ID = comp.ID ∧
     (updateCompetitionWeight comp weights address).Name = comp.Name ∧
     (updateCompetitionWeight comp weights address).TopicID = comp.TopicID ∧
     (updateCompetitionWeight comp weights address).Points = comp.Points ∧
     (updateCompetitionWeight comp weights address).Ranking = comp.Ranking) ∧
    ((∀ w ∈ weights, w.Worker ≠ address) →
      updateCompetitionWeight comp weights address = comp) ∧
    (comp.WeightRank = 0 → (∀ w ∈ weights, w.Worker ≠ address) →
      (updateCompetitionWeight comp weights address).WeightRank = 0 ∧
      ¬ 1 ≤ (updateCompetitionWeight comp weights address).WeightRank) ∧
    (∀ (now : ℤ) (user : AlloraUser),
      (toHistory now user).Competitions.map (fun c => c.WeightRank) =
        user.Competitions.map (fun c => c.WeightRank)) := by
  have hnone : (∀ w ∈ weights, w.Worker ≠ address) →
      updateCompetitionWeight comp weights address = comp := by
    intro habs
    have hf : weights.find? (fun w => w.Worker == address) = none :=
      List.find?_eq_none.mpr (fun x hx => by simpa using habs x hx)
    simp [updateCompetitionWeight, hf]
  refine ⟨?_, hnone, ?_, ?_⟩
  · rcases hf : weights.find? (fun w => w.Worker == address) with _ | w
    · simp [updateCompetitionWeight, hf]
    · simp [updateCompetitionWeight, hf]
  · intro h0 habs
    rw [hnone habs]
    omega
  · intro now user
    simp [toHistory, List.map_map]

/-- C10 witness: a competition standing with weight-rank `0` is untouched
when the address does not occur in the ranking. -/
theorem updateCompetitionWeight_spec_witness :
    updateCompetitionWeight exCompT1 [{ Worker := "Z", Weight := 1, Rank := 1 }] "B" =
      exCompT1 :=
  (updateCompetitionWeight_spec exCompT1 [{ Worker := "Z", Weight := 1, Rank := 1 }] "B").2.1
    (by decide)

/-- C6: when a previous snapshot is present, the change record satisfies
exactly: overall rank-changed iff the ranks differ; overall rank delta is
previous minus current; points delta is current minus previous; and every
competition of the current snapshot whose identifier matches a previous
competition (the first such match) yields an entry with rank delta
previous − current, points delta current − previous, weight delta
current − previous, and weight-rank delta previous − current, while a
competition with no previous match contributes no entry.  Competition
identifiers are assumed pairwise distinct within the current snapshot
(duplicates are undefined behaviour per the specification). -/
theorem calculateChanges_spec (current : AlloraUser) (prev : UserHistory)
    (hnd : (current.Competitions.map (fun c => c.ID)).Nodup) :
    ((calculateChanges current prev).OverallRankChanged = true ↔
      current.Ranking ≠ prev.Ranking) ∧
    (calculateChanges current prev).OverallRankDiff = prev.Ranking - current.Ranking ∧
    (calculateChanges current prev).PointsDiff = current.TotalPoints - prev.TotalPoints ∧
    ∀ c ∈ current.Competitions,
      (∀ p, prev.Competitions.find? (fun p => c.ID == p.ID) = some p →
        ∃ e, mapLookup (calculateChanges current prev).CompChanges c.ID = some e ∧
          (e.RankChanged = true ↔ c.Ranking ≠ p.Ranking) ∧
          e.RankDiff = p.Ranking - c.Ranking ∧
          e.PointsDiff = c.Points - p.Points ∧
          e.WeightDiff = c.Weight - p.Weight ∧
          e.WeightRankDiff = p.WeightRank - c.WeightRank) ∧
      (prev.Competitions.find? (fun p => c.ID == p.ID) = none →
        mapLookup (calculateChanges current prev).CompChanges c.ID = none) := by
  refine ⟨by simp [calculateChanges], rfl, rfl, ?_⟩
  intro c hc
  have h := compFold_lookup_mem prev.Competitions current.Competitions [] c hc hnd
  constructor
  · intro p hf
    refine ⟨compChangeEntry c p, ?_, ?_, rfl, rfl, rfl, rfl⟩
    · simpa [calculateChanges] using h.1 p hf
    · simp [compChangeEntry]
  · intro hf
    simpa [calculateChanges, mapLookup] using h.2 hf

/-- C6 witness: on the specification's worked scenario (previous rank 5,
current rank 3) the overall rank delta is `+2`. -/
theorem calculateChanges_spec_witness :
    (calculateChanges exScenCurrent exScenPrev).OverallRankDiff = 2 :=
  ((calculateChanges_spec exScenCurrent exScenPrev (by decide)).2.1).trans (by decide)

/-- Shared fact: a batch pass leaves the file-system model untouched (the
save loop of `CheckRankChanges` folds over the never-populated map). -/
theorem checkRankChanges_store_eq (addresses : List String) (baseDir : String)
    (fetchUser : String → Option AlloraUser)
    (fetchWeights : ℤ → Option (List InfererWeight))
    (fs : List (String × UserHistory)) (now : ℤ) :
    (CheckRankChanges addresses baseDir fetchUser fetchWeights fs now).store = fs := by
  simp [CheckRankChanges]

/-- C2: every invocation of the service-layer
`TelegramService.CheckRankChanges` leaves the snapshot store entirely
unchanged.  The map the save loop (models.go lines 440-444) ranges over is
the function-level `userData` map of line 356, which the `:=` at line 361
shadows with a loop-local variable, so it is never written and
`SaveHistory` is never called for any address — even when a rank change is
detected and the notification branch runs. -/
theorem checkRankChanges_store_unchanged (addresses : List String) (baseDir : String)
    (fetchUser : String → Option AlloraUser)
    (fetchWeights : ℤ → Option (List InfererWeight))
    (fs : List (String × UserHistory)) (now : ℤ) :
    (CheckRankChanges addresses baseDir fetchUser fetchWeights fs now).store = fs :=
  checkRankChanges_store_eq addresses baseDir fetchUser fetchWeights fs now

/-- C1 counterexample: a pass in which address `"A"` is successfully
processed (one display record is produced) and the batch is
notification-worthy (old rank 5, new rank 3), yet the address's stored
snapshot after the pass is not the new snapshot `toHistory 7 exUserA` —
nothing was persisted, refuting both the unconditional and the
notification-worthy persistence of processed snapshots. -/
theorem checkRankChanges_persist_cex :
    (CheckRankChanges ["A"] "h" exFetchUserA exNoWeights exFsA 7).notified = true ∧
    (CheckRankChanges ["A"] "h" exFetchUserA exNoWeights exFsA 7).users.length = 1 ∧
    mapLookup (CheckRankChanges ["A"] "h" exFetchUserA exNoWeights exFsA 7).store
        (histFilename "h" "A") ≠
      some (toHistory 7 exUserA) := by
  refine ⟨by decide, by decide, ?_⟩
  decide

/-- C1 amended: after the notification decision is made the pass persists
no snapshot at all — every address's stored snapshot after
`CheckRankChanges` is exactly what it was before the pass, whether or not
the batch was notification-worthy (the save loop is gated on the
notification branch and iterates an empty map). -/
theorem checkRankChanges_no_persist (addresses : List String) (baseDir : String)
    (fetchUser : String → Option AlloraUser)
    (fetchWeights : ℤ → Option (List InfererWeight))
    (fs : List (String × UserHistory)) (now : ℤ) (addr : String) :
    mapLookup (CheckRankChanges addresses baseDir fetchUser fetchWeights fs now).store
        (histFilename baseDir addr) =
      mapLookup fs (histFilename baseDir addr) := by
  rw [checkRankChanges_store_eq]

/-- C3: a batch pass decides to notify exactly when some processed
address's change record shows a changed overall rank or some changed
competition rank; in particular point-only or weight-only movement (all
rank-changed flags false) never triggers a notification. -/
theorem checkRankChanges_notify_iff (addresses : List String) (baseDir : String)
    (fetchUser : String → Option AlloraUser)
    (fetchWeights : ℤ → Option (List InfererWeight))
    (fs : List (String × UserHistory)) (now : ℤ) :
    (CheckRankChanges addresses baseDir fetchUser fetchWeights fs now).notified = true ↔
    ∃ p ∈ (CheckRankChanges addresses baseDir fetchUser fetchWeights fs now).changes,
      p.2.OverallRankChanged = true ∨ ∃ q ∈ p.2.CompChanges, q.2.RankChanged = true := by
  simp [CheckRankChanges, hasRankChangesOf]

/-- C4 counterexample: on a first run (no stored snapshot for address
`"A"`), the address is fetched and processed — it appears in the users
list — but the changes map stays empty: no `ChangeRecord` with all-false
flags is produced; the absent-previous case is handled by omitting the
record, not by representing it. -/
theorem checkRankChanges_absent_prev_cex :
    (CheckRankChanges ["A"] "h" exFetchUserA exNoWeights [] 7).changes = [] ∧
    (CheckRankChanges ["A"] "h" exFetchUserA exNoWeights [] 7).users.map
        (fun info => info.Address) =
      ["A"] := by
  exact ⟨by decide, by decide⟩

/-- C4 amended: when an address's previous snapshot is absent, change
detection produces no `ChangeRecord` for it — the changes map has no entry
for that address — while the address is still processed normally (its
display record still enters the users list when fetch and enrichment
succeed); absence is not signalled as an error. -/
theorem checkRankChanges_absent_prev (addresses : List String) (baseDir : String)
    (fetchUser : String → Option AlloraUser)
    (fetchWeights : ℤ → Option (List InfererWeight))
    (fs : List (String × UserHistory)) (now : ℤ) (addr : String)
    (habs : mapLookup fs (histFilename baseDir addr) = none) :
    mapLookup (CheckRankChanges addresses baseDir fetchUser fetchWeights fs now).changes
        addr = none ∧
    ∀ u u2, addr ∈ addresses → fetchUser addr = some u →
      UpdateCompetitionWeights fetchWeights u addr = some u2 →
      ∃ info ∈ (CheckRankChanges addresses baseDir fetchUser fetchWeights fs now).users,
        info.Address = addr := by
  constructor
  · exact foldl_changes_none baseDir fetchUser fetchWeights fs addr
      (fun u _ u2 _ => habs) addresses ([], []) rfl
  · intro u u2 hmem hu henr
    exact foldl_users_present baseDir fetchUser fetchWeights fs addr u u2 hu henr
      addresses ([], []) hmem

/-- C4 witness: concrete first run for address `"A"` over an empty store —
no change entry is recorded for it. -/
theorem checkRankChanges_absent_prev_witness :
    mapLookup (CheckRankChanges ["A"] "h" exFetchUserA exNoWeights [] 7).changes "A" =
      none :=
  (checkRankChanges_absent_prev ["A"] "h" exFetchUserA exNoWeights [] 7 "A" rfl).1

/-- C8 counterexample: address `"B"` is active in two competitions; the
weight fetch succeeds for topic 1 and fails only for topic 2, and a stored
snapshot with changed ranks exists.  The claim says only topic 2's weight
fields stay unenriched and the address is still processed, diffed, counted
and persisted; instead `UpdateCompetitionWeights` returns the error and the
whole address is skipped: no display record, no change record, no
notification — and the store (which no pass ever writes) is unchanged. -/
theorem checkRankChanges_weight_failure_cex :
    exFetchWeightsB 1 = some [{ Worker := "B", Weight := 1 }] ∧
    exFetchWeightsB 2 = none ∧
    UpdateCompetitionWeights exFetchWeightsB exUserB "B" = none ∧
    (CheckRankChanges ["B"] "h" exFetchUserB exFetchWeightsB exFsB 7).users = [] ∧
    (CheckRankChanges ["B"] "h" exFetchUserB exFetchWeightsB exFsB 7).changes = [] ∧
    (CheckRankChanges ["B"] "h" exFetchUserB exFetchWeightsB exFsB 7).notified = false := by
  refine ⟨by decide, by decide, by decide, by decide, by decide, by decide⟩

/-- C8 amended: if fetching the weight set of any single competition fails
during enrichment of an address, the whole address is skipped for that
batch pass: it gets no change record, contributes no display record (so it
is not counted towards the notification decision), and the store is left
as it was. -/
theorem checkRankChanges_weight_failure (addresses : List String) (baseDir : String)
    (fetchUser : String → Option AlloraUser)
    (fetchWeights : ℤ → Option (List InfererWeight))
    (fs : List (String × UserHistory)) (now : ℤ) (addr : String) (u : AlloraUser)
    (hu : fetchUser addr = some u)
    (hfail : UpdateCompetitionWeights fetchWeights u addr = none) :
    mapLookup (CheckRankChanges addresses baseDir fetchUser fetchWeights fs now).changes
        addr = none ∧
    (∀ info ∈ (CheckRankChanges addresses baseDir fetchUser fetchWeights fs now).users,
      info.Address ≠ addr) ∧
    (CheckRankChanges addresses baseDir fetchUser fetchWeights fs now).store = fs := by
  have hQ : ∀ v, fetchUser addr = some v →
      UpdateCompetitionWeights fetchWeights v addr = none := by
    intro v hv
    rw [hu] at hv
    cases hv
    exact hfail
  refine ⟨?_, ?_, checkRankChanges_store_eq addresses baseDir fetchUser fetchWeights fs now⟩
  · refine foldl_changes_none baseDir fetchUser fetchWeights fs addr ?_ addresses ([], []) rfl
    intro v hv u2 h2
    rw [hQ v hv] at h2
    cases h2
  · exact foldl_users_absent baseDir fetchUser fetchWeights fs addr hQ addresses ([], [])
      (by intro info h; simp at h)

/-- C8 witness: in the concrete two-competition scenario the skipped
address `"B"` ends the pass with no change entry. -/
theorem checkRankChanges_weight_failure_witness :
    mapLookup (CheckRankChanges ["B"] "h" exFetchUserB exFetchWeightsB exFsB 7).changes
        "B" = none :=
  (checkRankChanges_weight_failure ["B"] "h" exFetchUserB exFetchWeightsB exFsB 7 "B"
    exUserB rfl rfl).1
